import Mathlib

/-!
Verification of the colored-regions queens solver (`src/main.py`).

The solver takes a grid of region identifiers, builds an index from each
region identifier to its list of candidate cells (in row-major discovery
order), orders regions by ascending candidate count (stable on ties), and
runs a depth-first backtracking search over that order, maintaining the
sets of used rows, used columns and blocked cells, with an undo-token
mechanism to roll back exactly the newly blocked cells.
-/

namespace QueensSolver

abbrev Cell := Nat × Nat
abbrev Grid := List (List Nat)

/-- Models `regions.setdefault(region_id, []).append((r, c))`: append the cell to the
entry with that key if present, otherwise add a new `(rid, [cell])` entry at
the end (Python dicts keep insertion order). -/
def addCell : List (Nat × List Cell) → Nat → Cell → List (Nat × List Cell)
  | [], rid, cell => [(rid, [cell])]
  | (k, cs) :: rest, rid, cell =>
    if k = rid then (k, cs ++ [cell]) :: rest
    else (k, cs) :: addCell rest rid cell

/-- Inner loop of the index-building scan: `for c, region_id in enumerate(row)`. -/
def buildRegionsRow (r : Nat) : List (Nat × List Cell) → Nat → List Nat → List (Nat × List Cell)
  | regs, _, [] => regs
  | regs, c, rid :: rest => buildRegionsRow r (addCell regs rid (r, c)) (c + 1) rest

/-- Outer loop of the index-building scan: `for r, row in enumerate(region_grid)`. -/
def buildRegionsAux : List (Nat × List Cell) → Nat → List (List Nat) → List (Nat × List Cell)
  | regs, _, [] => regs
  | regs, r, row :: rest => buildRegionsAux (buildRegionsRow r regs 0 row) (r + 1) rest

/-- The region index (`regions` in `solve_colored_queens`): map each region id
to its candidate cells, keys in first-appearance order. -/
def buildRegions (g : Grid) : List (Nat × List Cell) := buildRegionsAux [] 0 g

/-- Models `regions[rid]` (association-list lookup; `[]` for an absent key, which
never occurs for keys drawn from the index itself). -/
def lookupCells : List (Nat × List Cell) → Nat → List Cell
  | [], _ => []
  | (k, cs) :: rest, rid => if k = rid then cs else lookupCells rest rid

/-- The comparison used by `sorted(regions.keys(), key=lambda rid: len(regions[rid]))`. -/
def leCount (regs : List (Nat × List Cell)) (a b : Nat) : Prop :=
  (lookupCells regs a).length ≤ (lookupCells regs b).length

instance (regs : List (Nat × List Cell)) : DecidableRel (leCount regs) :=
  fun _ _ => Nat.decLe _ _

/-- Models `region_order = sorted(regions.keys(), key=lambda rid: len(regions[rid]))`:
a stable sort of the keys by ascending candidate count (Python's `sorted` is
stable; any two stable sorts by the same key agree, so insertion sort is a
faithful model). -/
def region_order (regs : List (Nat × List Cell)) : List Nat :=
  (regs.map (·.1)).insertionSort (leCount regs)

/-- The in-bounds 3×3 neighborhood scan of `add_blockers`:
`for dr in (-1,0,1): for dc in (-1,0,1):` keep `(r+dr, c+dc)` when inside
the `rows × cols` bounds. -/
def nbhdList (rows cols : Nat) (r c : Nat) : List Cell :=
  ([-1, 0, 1] : List Int).flatMap (fun dr =>
    ([-1, 0, 1] : List Int).filterMap (fun dc =>
      let nr : Int := (r : Int) + dr
      let nc : Int := (c : Int) + dc
      if 0 ≤ nr ∧ nr < (rows : Int) ∧ 0 ≤ nc ∧ nc < (cols : Int) then
        some (nr.toNat, nc.toNat)
      else none))

/-- Models `add_blockers(r, c, target_set)`: add every in-bounds neighborhood cell to
the target set. -/
def add_blockers (rows cols : Nat) (r c : Nat) (target : Finset Cell) : Finset Cell :=
  (nbhdList rows cols r c).foldl (fun s cell => insert cell s) target

/-- The mutable search sets `used_rows`, `used_cols`, `blocked`. -/
structure ConstraintState where
  used_rows : Finset Nat
  used_cols : Finset Nat
  blocked : Finset Cell
deriving DecidableEq

/-- The place step (lines 116-122): add the row and column, compute
`new_blocked` from an empty set, add exactly the cells not already blocked,
and return them as the undo token. -/
def place (rows cols : Nat) (st : ConstraintState) (r c : Nat) :
    ConstraintState × Finset Cell :=
  let new_blocked := add_blockers rows cols r c ∅
  let newly_added := new_blocked \ st.blocked
  ({ used_rows := insert r st.used_rows,
     used_cols := insert c st.used_cols,
     blocked := st.blocked ∪ newly_added }, newly_added)

/-- The undo step (lines 128-130): remove the recorded newly added cells,
the row and the column. -/
def undo (st : ConstraintState) (r c : Nat) (token : Finset Cell) : ConstraintState :=
  { used_rows := st.used_rows.erase r,
    used_cols := st.used_cols.erase c,
    blocked := st.blocked \ token }

/-- Models `placement[rid] = v`: overwrite in place if the key exists, else append. -/
def dictInsert : List (Nat × Cell) → Nat → Cell → List (Nat × Cell)
  | [], k, v => [(k, v)]
  | (k', v') :: rest, k, v =>
    if k' = k then (k, v) :: rest else (k', v') :: dictInsert rest k v

/-- Models `del placement[rid]`: drop the entry with that key. -/
def dictErase : List (Nat × Cell) → Nat → List (Nat × Cell)
  | [], _ => []
  | (k', v') :: rest, k => if k' = k then rest else (k', v') :: dictErase rest k

/-- The whole mutable search state: constraint sets plus the placement dict. -/
structure SearchState where
  cs : ConstraintState
  placement : List (Nat × Cell)
deriving DecidableEq

/-- The candidate loop of `backtrack` at one depth: `for (r, c) in regions[rid]`.
Skips unplaceable cells, otherwise places, recurses through the continuation
`k` (the search at the next depth), and on failure undoes and continues with
the rolled-back state. -/
def tryCells (rows cols : Nat) (rid : Nat) (k : SearchState → Option SearchState) :
    List Cell → SearchState → Option SearchState
  | [], _ => none
  | (r, c) :: cands, st =>
    if r ∈ st.cs.used_rows ∨ c ∈ st.cs.used_cols then
      tryCells rows cols rid k cands st
    else if (r, c) ∈ st.cs.blocked then
      tryCells rows cols rid k cands st
    else
      let pl := place rows cols st.cs r c
      let placed : SearchState := { cs := pl.1, placement := dictInsert st.placement rid (r, c) }
      match k placed with
      | some stSol => some stSol
      | none =>
        let rolled : SearchState :=
          { cs := undo placed.cs r c pl.2, placement := dictErase placed.placement rid }
        tryCells rows cols rid k cands rolled

/-- Models `backtrack(idx)`: depth `idx` is the position in the region order; at the
end of the order the current state is the solution. -/
def backtrack (rows cols : Nat) (regs : List (Nat × List Cell)) :
    List Nat → SearchState → Option SearchState
  | [], st => some st
  | rid :: rest, st =>
    tryCells rows cols rid (backtrack rows cols regs rest) (lookupCells regs rid) st

/-- The part of `solve_colored_queens` after the region index is built
(lines 84-136), abstracted over the search procedure: the feasibility check
short-circuits to `none` before the search function is ever consulted. -/
def solveFromRegionsAux (regs : List (Nat × List Cell))
    (search : List Nat → SearchState → Option SearchState) : Option (List (Nat × Cell)) :=
  if regs.any (fun e => e.2.isEmpty) then none
  else
    match search (region_order regs) ⟨⟨∅, ∅, ∅⟩, []⟩ with
    | some st => some st.placement
    | none => none

/-- Lines 84-136 with the search instantiated to the real `backtrack`. -/
def solveFromRegions (rows cols : Nat) (regs : List (Nat × List Cell)) :
    Option (List (Nat × Cell)) :=
  solveFromRegionsAux regs (backtrack rows cols regs)

/-- Models `solve_colored_queens(region_grid)`: returns the placement dict (as an
association list in insertion order) or `none` for "no solution". -/
def solve_colored_queens (g : Grid) : Option (List (Nat × Cell)) :=
  let rows := g.length
  let cols := (g.head?.getD []).length
  solveFromRegions rows cols (buildRegions g)

/-! ### Specification-side vocabulary -/

/-- The grid entry at a cell, when in range. -/
def gridAt (g : Grid) (cell : Cell) : Option Nat :=
  (g[cell.1]?).bind (fun row => row[cell.2]?)

/-- A rectangular grid: every row has the first row's length. -/
def rectangular (g : Grid) : Prop :=
  ∀ row ∈ g, row.length = (g.head?.getD []).length

instance (g : Grid) : Decidable (rectangular g) := by
  unfold rectangular; infer_instance

/-- Chebyshev distance between two cells. -/
def chebDist (p q : Cell) : Nat :=
  max ((p.1 : Int) - (q.1 : Int)).natAbs ((p.2 : Int) - (q.2 : Int)).natAbs

/-! ### Neighborhood lemmas -/

theorem mem_foldl_insert (l : List Cell) (init : Finset Cell) (x : Cell) :
    x ∈ l.foldl (fun s cell => insert cell s) init ↔ x ∈ init ∨ x ∈ l := by
  induction l generalizing init with
  | nil => simp
  | cons y ys ih =>
    simp only [List.foldl_cons, ih, Finset.mem_insert, List.mem_cons]
    tauto

theorem mem_nbhdList {rows cols r c a b : Nat} :
    (a, b) ∈ nbhdList rows cols r c ↔
      a < rows ∧ b < cols ∧ ((a : Int) - r).natAbs ≤ 1 ∧ ((b : Int) - c).natAbs ≤ 1 := by
  simp only [nbhdList, List.mem_flatMap, List.mem_filterMap, List.mem_cons,
    List.mem_singleton, List.not_mem_nil, or_false]
  constructor
  · rintro ⟨dr, hdr, dc, hdc, h⟩
    rcases hdr with rfl | rfl | rfl <;> rcases hdc with rfl | rfl | rfl <;>
      split_ifs at h with hcond <;>
      (rw [Option.some_inj, Prod.mk.injEq] at h; omega)
  · rintro ⟨h1, h2, h3, h4⟩
    refine ⟨(a : Int) - r, ?_, (b : Int) - c, ?_, ?_⟩
    · omega
    · omega
    · rw [if_pos (by omega), Option.some_inj, Prod.mk.injEq]
      refine ⟨by omega, by omega⟩

theorem mem_add_blockers {rows cols r c : Nat} {target : Finset Cell} {x : Cell} :
    x ∈ add_blockers rows cols r c target ↔ x ∈ target ∨ x ∈ nbhdList rows cols r c :=
  mem_foldl_insert _ _ _

/-- The blocking neighborhood of a placed cell, as a set. -/
def nbhd (rows cols : Nat) (p : Cell) : Finset Cell :=
  add_blockers rows cols p.1 p.2 ∅

theorem chebDist_comm (p q : Cell) : chebDist p q = chebDist q p := by
  unfold chebDist
  rw [← Int.natAbs_neg ((p.1 : Int) - (q.1 : Int)), neg_sub,
    ← Int.natAbs_neg ((p.2 : Int) - (q.2 : Int)), neg_sub, Nat.max_comm]

theorem mem_nbhd {rows cols : Nat} {p x : Cell} :
    x ∈ nbhd rows cols p ↔ x.1 < rows ∧ x.2 < cols ∧ chebDist p x ≤ 1 := by
  obtain ⟨pr, pc⟩ := p
  obtain ⟨a, b⟩ := x
  rw [nbhd, mem_add_blockers]
  simp only [Finset.not_mem_empty, false_or, mem_nbhdList, chebDist]
  constructor
  · rintro ⟨h1, h2, h3, h4⟩
    refine ⟨h1, h2, ?_⟩
    simp only [Nat.max_le]
    omega
  · rintro ⟨h1, h2, h3⟩
    simp only [Nat.max_le] at h3
    omega

/-- The union of the blocking neighborhoods of a list of placed cells. -/
def blockedOf (rows cols : Nat) (cells : List Cell) : Finset Cell :=
  cells.foldr (fun p acc => nbhd rows cols p ∪ acc) ∅

theorem mem_blockedOf {rows cols : Nat} {cells : List Cell} {x : Cell} :
    x ∈ blockedOf rows cols cells ↔ ∃ p ∈ cells, x ∈ nbhd rows cols p := by
  induction cells with
  | nil => simp [blockedOf]
  | cons q qs ih =>
    simp only [blockedOf, List.foldr_cons, Finset.mem_union, List.mem_cons]
    rw [show qs.foldr (fun p acc => nbhd rows cols p ∪ acc) ∅ = blockedOf rows cols qs from rfl,
      ih]
    constructor
    · rintro (h | ⟨p, hp, hx⟩)
      · exact ⟨q, Or.inl rfl, h⟩
      · exact ⟨p, Or.inr hp, hx⟩
    · rintro ⟨p, rfl | hp, hx⟩
      · exact Or.inl hx
      · exact Or.inr ⟨p, hp, hx⟩

/-! ### Place / undo lemmas -/

theorem place_used_rows (rows cols : Nat) (st : ConstraintState) (r c : Nat) :
    (place rows cols st r c).1.used_rows = insert r st.used_rows := rfl

theorem place_undo_eq (rows cols : Nat) (st : ConstraintState) (r c : Nat)
    (h1 : r ∉ st.used_rows) (h2 : c ∉ st.used_cols) :
    undo (place rows cols st r c).1 r c (place rows cols st r c).2 = st := by
  obtain ⟨ur, uc, bl⟩ := st
  simp only [place, undo]
  refine ConstraintState.mk.injEq .. ▸ ⟨?_, ?_, ?_⟩
  · exact Finset.erase_insert h1
  · exact Finset.erase_insert h2
  · ext x
    simp only [Finset.mem_sdiff, Finset.mem_union]
    tauto

theorem place_blocked_eq (rows cols : Nat) (st : ConstraintState) (r c : Nat)
    (placed : List Cell) (hinv : st.blocked = blockedOf rows cols placed) :
    (place rows cols st r c).1.blocked = blockedOf rows cols (placed ++ [(r, c)]) := by
  simp only [place]
  ext x
  simp only [Finset.mem_union, Finset.mem_sdiff, hinv, mem_blockedOf, List.mem_append,
    List.mem_singleton]
  constructor
  · rintro (⟨p, hp, hx⟩ | ⟨hx, -⟩)
    · exact ⟨p, Or.inl hp, hx⟩
    · exact ⟨(r, c), Or.inr rfl, hx⟩
  · rintro ⟨p, hp | rfl, hx⟩
    · exact Or.inl ⟨p, hp, hx⟩
    · by_cases hb : x ∈ blockedOf rows cols placed
      · exact Or.inl (mem_blockedOf.mp hb)
      · exact Or.inr ⟨hx, fun h => hb (mem_blockedOf.mpr h)⟩

theorem dictInsert_not_mem {p : List (Nat × Cell)} {k : Nat} {v : Cell}
    (h : k ∉ p.map (·.1)) : dictInsert p k v = p ++ [(k, v)] := by
  induction p with
  | nil => rfl
  | cons e rest ih =>
    simp only [List.map_cons, List.mem_cons] at h
    push_neg at h
    simp only [dictInsert, if_neg (Ne.symm h.1), List.cons_append, ih h.2]

theorem dictErase_dictInsert {p : List (Nat × Cell)} {k : Nat} {v : Cell}
    (h : k ∉ p.map (·.1)) : dictErase (dictInsert p k v) k = p := by
  induction p with
  | nil => simp [dictInsert, dictErase]
  | cons e rest ih =>
    simp only [List.map_cons, List.mem_cons] at h
    push_neg at h
    simp only [dictInsert, if_neg (Ne.symm h.1), dictErase, ih h.2]

/-! ### Characterization of the region index -/

/-- Cells of one row that carry `rid`, in column order, starting at column `c`. -/
def rowCells (r c : Nat) (rid : Nat) : List Nat → List Cell
  | [] => []
  | x :: xs =>
    if x = rid then (r, c) :: rowCells r (c + 1) rid xs else rowCells r (c + 1) rid xs

/-- Cells of the grid that carry `rid`, in row-major order, starting at row `r`. -/
def gridCells (r : Nat) (rid : Nat) : List (List Nat) → List Cell
  | [] => []
  | row :: rest => rowCells r 0 rid row ++ gridCells (r + 1) rid rest

theorem lookupCells_addCell (regs : List (Nat × List Cell)) (rid' rid : Nat) (cell : Cell) :
    lookupCells (addCell regs rid' cell) rid =
      if rid' = rid then lookupCells regs rid ++ [cell] else lookupCells regs rid := by
  induction regs with
  | nil =>
    by_cases h : rid' = rid <;> simp [addCell, lookupCells, h]
  | cons e rest ih =>
    obtain ⟨k, cs⟩ := e
    by_cases h1 : k = rid'
    · subst h1
      by_cases h2 : k = rid <;> simp [addCell, lookupCells, h2]
    · by_cases h2 : k = rid
      · subst h2
        have hne : rid' ≠ k := fun h => h1 h.symm
        simp [addCell, h1, lookupCells, hne]
      · simp [addCell, h1, lookupCells, h2, ih]

theorem keys_addCell (regs : List (Nat × List Cell)) (rid : Nat) (cell : Cell) :
    (addCell regs rid cell).map (·.1) =
      if rid ∈ regs.map (·.1) then regs.map (·.1) else regs.map (·.1) ++ [rid] := by
  induction regs with
  | nil => simp [addCell]
  | cons e rest ih =>
    obtain ⟨k, cs⟩ := e
    by_cases h : k = rid
    · subst h; simp [addCell]
    · by_cases hm : rid ∈ rest.map (·.1) <;>
        simp [addCell, h, ih, hm, Ne.symm h]

theorem addCell_entries_ne_nil {regs : List (Nat × List Cell)} {rid : Nat} {cell : Cell}
    (h : ∀ e ∈ regs, e.2 ≠ []) : ∀ e ∈ addCell regs rid cell, e.2 ≠ [] := by
  induction regs with
  | nil => simp [addCell]
  | cons e' rest ih =>
    obtain ⟨k, cs⟩ := e'
    simp only [List.mem_cons, forall_eq_or_imp] at h
    by_cases hk : k = rid
    · simp only [addCell, if_pos hk, List.mem_cons]
      rintro e (rfl | he)
      · simp
      · exact h.2 e he
    · simp only [addCell, if_neg hk, List.mem_cons]
      rintro e (rfl | he)
      · exact h.1
      · exact ih h.2 e he

theorem lookupCells_buildRegionsRow (r : Nat) (row : List Nat) :
    ∀ (regs : List (Nat × List Cell)) (c rid : Nat),
      lookupCells (buildRegionsRow r regs c row) rid
        = lookupCells regs rid ++ rowCells r c rid row := by
  induction row with
  | nil => intro regs c rid; simp [buildRegionsRow, rowCells]
  | cons x xs ih =>
    intro regs c rid
    simp only [buildRegionsRow, rowCells]
    rw [ih, lookupCells_addCell]
    by_cases h : x = rid
    · subst h; simp
    · simp [h]

theorem lookupCells_buildRegionsAux (g : List (List Nat)) :
    ∀ (regs : List (Nat × List Cell)) (r rid : Nat),
      lookupCells (buildRegionsAux regs r g) rid
        = lookupCells regs rid ++ gridCells r rid g := by
  induction g with
  | nil => intro regs r rid; simp [buildRegionsAux, gridCells]
  | cons row rest ih =>
    intro regs r rid
    simp only [buildRegionsAux, gridCells]
    rw [ih, lookupCells_buildRegionsRow, List.append_assoc]

theorem lookupCells_buildRegions (g : Grid) (rid : Nat) :
    lookupCells (buildRegions g) rid = gridCells 0 rid g := by
  rw [buildRegions, lookupCells_buildRegionsAux]
  rfl

theorem mem_rowCells {r rid a b : Nat} {row : List Nat} :
    ∀ {c : Nat},
      (a, b) ∈ rowCells r c rid row ↔ a = r ∧ c ≤ b ∧ row[b - c]? = some rid := by
  induction row with
  | nil => intro c; simp [rowCells]
  | cons x xs ih =>
    intro c
    simp only [rowCells]
    by_cases h : x = rid
    · subst h
      rw [if_pos rfl]
      simp only [List.mem_cons, Prod.mk.injEq, ih]
      constructor
      · rintro (⟨rfl, rfl⟩ | ⟨rfl, hc, hget⟩)
        · simp
        · refine ⟨rfl, by omega, ?_⟩
          rw [show b - c = (b - (c + 1)) + 1 from by omega]
          simpa using hget
      · rintro ⟨rfl, hc, hget⟩
        by_cases hb : b = c
        · subst hb
          exact Or.inl ⟨rfl, rfl⟩
        · refine Or.inr ⟨rfl, by omega, ?_⟩
          rw [show b - c = (b - (c + 1)) + 1 from by omega] at hget
          simpa using hget
    · rw [if_neg h, ih]
      constructor
      · rintro ⟨rfl, hc, hget⟩
        refine ⟨rfl, by omega, ?_⟩
        rw [show b - c = (b - (c + 1)) + 1 from by omega]
        simpa using hget
      · rintro ⟨rfl, hc, hget⟩
        by_cases hb : b = c
        · subst hb
          simp only [Nat.sub_self, List.getElem?_cons_zero, Option.some_inj] at hget
          exact absurd hget h
        · refine ⟨rfl, by omega, ?_⟩
          rw [show b - c = (b - (c + 1)) + 1 from by omega] at hget
          simpa using hget

theorem mem_gridCells {rid a b : Nat} {g : List (List Nat)} :
    ∀ {r : Nat},
      (a, b) ∈ gridCells r rid g ↔
        r ≤ a ∧ ∃ row, g[a - r]? = some row ∧ row[b]? = some rid := by
  induction g with
  | nil => intro r; simp [gridCells]
  | cons row rest ih =>
    intro r
    simp only [gridCells, List.mem_append, mem_rowCells, ih]
    constructor
    · rintro (⟨rfl, -, hget⟩ | ⟨hr, row', hget', hget''⟩)
      · refine ⟨le_refl _, row, by simp, ?_⟩
        simpa using hget
      · refine ⟨by omega, row', ?_, hget''⟩
        rw [show a - r = (a - (r + 1)) + 1 from by omega]
        simpa using hget'
    · rintro ⟨hra, row', hget', hget''⟩
      by_cases ha : a = r
      · subst ha
        simp only [Nat.sub_self, List.getElem?_cons_zero, Option.some_inj] at hget'
        subst hget'
        exact Or.inl ⟨rfl, Nat.zero_le _, by simpa using hget''⟩
      · refine Or.inr ⟨by omega, row', ?_, hget''⟩
        rw [show a - r = (a - (r + 1)) + 1 from by omega] at hget'
        simpa using hget'

theorem mem_lookupCells_buildRegions {g : Grid} {rid : Nat} {cell : Cell} :
    cell ∈ lookupCells (buildRegions g) rid ↔ gridAt g cell = some rid := by
  obtain ⟨a, b⟩ := cell
  rw [lookupCells_buildRegions, mem_gridCells, gridAt]
  simp only [Option.bind_eq_some, Nat.sub_zero, Nat.zero_le, true_and]

/-! ### Keys of the region index: first-appearance order, no duplicates -/

/-- Region ids in order of first appearance while scanning one row, given the
ids already seen. -/
def firstAppearancesRow (seen : List Nat) (row : List Nat) : List Nat :=
  row.foldl (fun s x => if x ∈ s then s else s ++ [x]) seen

/-- Region ids in order of first appearance in the row-major scan of the grid. -/
def firstAppearances (g : Grid) : List Nat :=
  g.foldl firstAppearancesRow []

theorem keys_buildRegionsRow (r : Nat) (row : List Nat) :
    ∀ (regs : List (Nat × List Cell)) (c : Nat),
      (buildRegionsRow r regs c row).map (·.1)
        = firstAppearancesRow (regs.map (·.1)) row := by
  induction row with
  | nil => intro regs c; rfl
  | cons x xs ih =>
    intro regs c
    simp only [buildRegionsRow, firstAppearancesRow, List.foldl_cons]
    rw [ih, keys_addCell]
    rfl

theorem keys_buildRegionsAux (g : List (List Nat)) :
    ∀ (regs : List (Nat × List Cell)) (r : Nat),
      (buildRegionsAux regs r g).map (·.1)
        = g.foldl firstAppearancesRow (regs.map (·.1)) := by
  induction g with
  | nil => intro regs r; rfl
  | cons row rest ih =>
    intro regs r
    simp only [buildRegionsAux, List.foldl_cons]
    rw [ih, keys_buildRegionsRow]

theorem keys_buildRegions (g : Grid) :
    (buildRegions g).map (·.1) = firstAppearances g := by
  rw [buildRegions, keys_buildRegionsAux]
  rfl

theorem nodup_firstAppearancesRow (row : List Nat) :
    ∀ seen : List Nat, seen.Nodup → (firstAppearancesRow seen row).Nodup := by
  induction row with
  | nil => intro seen h; exact h
  | cons x xs ih =>
    intro seen h
    simp only [firstAppearancesRow, List.foldl_cons]
    by_cases hx : x ∈ seen
    · rw [if_pos hx]
      exact ih seen h
    · rw [if_neg hx]
      refine ih _ ?_
      simp [List.nodup_append, h, hx]

theorem nodup_firstAppearancesAux (g : List (List Nat)) :
    ∀ seen : List Nat, seen.Nodup → (g.foldl firstAppearancesRow seen).Nodup := by
  induction g with
  | nil => intro seen h; exact h
  | cons row rest ih =>
    intro seen h
    simp only [List.foldl_cons]
    exact ih _ (nodup_firstAppearancesRow row seen h)

theorem nodup_keys_buildRegions (g : Grid) : ((buildRegions g).map (·.1)).Nodup := by
  rw [keys_buildRegions]
  exact nodup_firstAppearancesAux g [] List.nodup_nil

theorem buildRegions_entries_ne_nil (g : Grid) : ∀ e ∈ buildRegions g, e.2 ≠ [] := by
  have hrow : ∀ (row : List Nat) (r : Nat) (regs : List (Nat × List Cell)) (c : Nat),
      (∀ e ∈ regs, e.2 ≠ []) → ∀ e ∈ buildRegionsRow r regs c row, e.2 ≠ [] := by
    intro row
    induction row with
    | nil => intro r regs c h; exact h
    | cons x xs ih =>
      intro r regs c h
      simp only [buildRegionsRow]
      exact ih r _ (c + 1) (addCell_entries_ne_nil h)
  have haux : ∀ (rows : List (List Nat)) (regs : List (Nat × List Cell)) (r : Nat),
      (∀ e ∈ regs, e.2 ≠ []) → ∀ e ∈ buildRegionsAux regs r rows, e.2 ≠ [] := by
    intro rows
    induction rows with
    | nil => intro regs r h; exact h
    | cons row rest ih =>
      intro regs r h
      simp only [buildRegionsAux]
      exact ih _ (r + 1) (hrow row r regs 0 h)
  exact haux g [] 0 (by simp)

theorem lookupCells_eq_nil_of_not_mem {regs : List (Nat × List Cell)} {rid : Nat}
    (h : rid ∉ regs.map (·.1)) : lookupCells regs rid = [] := by
  induction regs with
  | nil => rfl
  | cons e rest ih =>
    obtain ⟨k, cs⟩ := e
    simp only [List.map_cons, List.mem_cons] at h
    push_neg at h
    simp only [lookupCells, if_neg (Ne.symm h.1)]
    exact ih h.2

theorem lookupCells_ne_nil_of_mem {regs : List (Nat × List Cell)} {rid : Nat}
    (hne : ∀ e ∈ regs, e.2 ≠ []) (h : rid ∈ regs.map (·.1)) :
    lookupCells regs rid ≠ [] := by
  induction regs with
  | nil => simp at h
  | cons e rest ih =>
    obtain ⟨k, cs⟩ := e
    simp only [List.mem_cons, forall_eq_or_imp] at hne
    simp only [List.map_cons, List.mem_cons] at h
    by_cases hk : k = rid
    · simp only [lookupCells, if_pos hk]
      exact hne.1
    · simp only [lookupCells, if_neg hk]
      exact ih hne.2 (h.resolve_left (fun hr => hk hr.symm))

/-! ### Candidate cells are listed in row-major order -/

/-- Strict row-major order on cells: earlier row, or same row and earlier
column. -/
def rowMajorLT (p q : Cell) : Prop := p.1 < q.1 ∨ (p.1 = q.1 ∧ p.2 < q.2)

theorem rowCells_pairwise (r rid : Nat) (row : List Nat) :
    ∀ c : Nat, (rowCells r c rid row).Pairwise rowMajorLT := by
  induction row with
  | nil => intro c; simp [rowCells]
  | cons x xs ih =>
    intro c
    simp only [rowCells]
    by_cases h : x = rid
    · rw [if_pos h]
      refine List.Pairwise.cons ?_ (ih (c + 1))
      rintro ⟨qa, qb⟩ hq
      rw [mem_rowCells] at hq
      exact Or.inr ⟨hq.1.symm, by omega⟩
    · rw [if_neg h]
      exact ih (c + 1)

theorem gridCells_pairwise (rid : Nat) (g : List (List Nat)) :
    ∀ r : Nat, (gridCells r rid g).Pairwise rowMajorLT := by
  induction g with
  | nil => intro r; simp [gridCells]
  | cons row rest ih =>
    intro r
    simp only [gridCells]
    rw [List.pairwise_append]
    refine ⟨rowCells_pairwise r rid row 0, ih (r + 1), ?_⟩
    rintro ⟨pa, pb⟩ hp ⟨qa, qb⟩ hq
    rw [mem_rowCells] at hp
    rw [mem_gridCells] at hq
    exact Or.inl (by omega)

/-! ### Stability of the region ordering -/

instance (regs : List (Nat × List Cell)) : IsTotal Nat (leCount regs) :=
  ⟨fun _ _ => Nat.le_total _ _⟩

instance (regs : List (Nat × List Cell)) : IsTrans Nat (leCount regs) :=
  ⟨fun _ _ _ => Nat.le_trans⟩

theorem pair_sublist_of_mem {α : Type} {l : List α} {a b : α}
    (ha : a ∈ l) (hb : b ∈ l) (hne : a ≠ b) :
    List.Sublist [a, b] l ∨ List.Sublist [b, a] l := by
  induction l with
  | nil => simp at ha
  | cons x xs ih =>
    rcases List.mem_cons.mp ha with rfl | ha'
    · have hb' : b ∈ xs := (List.mem_cons.mp hb).resolve_left (fun h => hne h.symm)
      exact Or.inl (List.Sublist.cons₂ _ (List.singleton_sublist.mpr hb'))
    · rcases List.mem_cons.mp hb with rfl | hb'
      · exact Or.inr (List.Sublist.cons₂ _ (List.singleton_sublist.mpr ha'))
      · rcases ih ha' hb' with h | h
        · exact Or.inl (h.cons _)
        · exact Or.inr (h.cons _)

theorem pair_sublist_antisymm {α : Type} {l : List α} {a b : α}
    (hnd : l.Nodup) (hab : List.Sublist [a, b] l) (hba : List.Sublist [b, a] l) : a = b := by
  induction l with
  | nil => simp at hab
  | cons x xs ih =>
    cases hab with
    | cons _ h₁ =>
      cases hba with
      | cons _ h₂ => exact ih (List.nodup_cons.mp hnd).2 h₁ h₂
      | cons₂ _ h₂ =>
        exact absurd (h₁.subset (by simp)) (List.nodup_cons.mp hnd).1
    | cons₂ _ h₁ =>
      cases hba with
      | cons _ h₂ =>
        exact absurd (h₂.subset (by simp)) (List.nodup_cons.mp hnd).1
      | cons₂ _ h₂ => rfl

/-! ### Claim C6: the search order -/

/-- C6: the region order is sorted by ascending candidate count; two regions
with equal counts keep their relative first-appearance order from the
row-major grid scan; and each region's candidate list is strictly increasing
in row-major order (rows ascending, columns ascending within a row). -/
theorem region_order_characterization (g : Grid) :
    (region_order (buildRegions g)).Pairwise
      (fun a b => (lookupCells (buildRegions g) a).length
        ≤ (lookupCells (buildRegions g) b).length) ∧
    (∀ a b, List.Sublist [a, b] (region_order (buildRegions g)) →
      (lookupCells (buildRegions g) a).length = (lookupCells (buildRegions g) b).length →
      List.Sublist [a, b] (firstAppearances g)) ∧
    (∀ rid, (lookupCells (buildRegions g) rid).Pairwise rowMajorLT) := by
  refine ⟨?_, ?_, ?_⟩
  · exact List.sorted_insertionSort (leCount (buildRegions g)) ((buildRegions g).map (·.1))
  · intro a b hab heq
    have hperm : List.Perm (region_order (buildRegions g)) ((buildRegions g).map (·.1)) :=
      List.perm_insertionSort _ _
    have hkeys : ((buildRegions g).map (·.1)).Nodup := nodup_keys_buildRegions g
    have horder : (region_order (buildRegions g)).Nodup := hperm.nodup_iff.mpr hkeys
    have hne : a ≠ b := by
      have hpair : ([a, b] : List Nat).Nodup := List.Nodup.sublist hab horder
      simpa using (List.nodup_cons.mp hpair).1
    have ha : a ∈ (buildRegions g).map (·.1) := hperm.subset (hab.subset (by simp))
    have hb : b ∈ (buildRegions g).map (·.1) := hperm.subset (hab.subset (by simp))
    rw [← keys_buildRegions]
    rcases pair_sublist_of_mem ha hb hne with h | h
    · exact h
    · exfalso
      have hba : List.Sublist [b, a] (region_order (buildRegions g)) :=
        List.pair_sublist_insertionSort (le_of_eq heq.symm) h
      exact hne (pair_sublist_antisymm horder hab hba)
  · intro rid
    rw [lookupCells_buildRegions]
    exact gridCells_pairwise rid g 0

theorem region_order_characterization_witness :
    List.Sublist [0, 1] (firstAppearances [[0, 1]]) :=
  (region_order_characterization [[0, 1]]).2.1 0 1 (by decide) (by decide)

/-! ### Claim C3: place followed by undo restores the constraint state -/

/-- C3: for every constraint state and every placeable cell `(r, c)` (row and
column unused, cell unblocked), the place step (add row, add column, block the
not-yet-blocked in-bounds neighborhood cells, recording them as the undo
token) followed by the undo step (remove row, remove column, remove exactly
the recorded cells) restores the constraint state exactly; in particular
cells blocked by earlier placements remain blocked. -/
theorem place_then_undo_restores_state (rows cols : Nat) (st : ConstraintState) (r c : Nat)
    (h1 : r ∉ st.used_rows) (h2 : c ∉ st.used_cols) (_h3 : (r, c) ∉ st.blocked) :
    undo (place rows cols st r c).1 r c (place rows cols st r c).2 = st :=
  place_undo_eq rows cols st r c h1 h2

theorem place_then_undo_restores_state_witness :
    (0 : Nat) ∉ (∅ : Finset Nat) ∧ ((0, 0) : Cell) ∉ (∅ : Finset Cell) ∧
    undo (place 3 3 ⟨∅, ∅, ∅⟩ 0 0).1 0 0 (place 3 3 ⟨∅, ∅, ∅⟩ 0 0).2
      = (⟨∅, ∅, ∅⟩ : ConstraintState) :=
  ⟨by decide, by decide,
    place_then_undo_restores_state 3 3 ⟨∅, ∅, ∅⟩ 0 0 (by decide) (by decide) (by decide)⟩

/-! ### Claim C10: the blocked set is the union of placed neighborhoods -/

/-- C10: if the blocked set equals the union of the in-bounds
Chebyshev-distance-1 neighborhoods of the currently placed cells, then after
a place step it equals that union for the placed cells extended with the new
cell, and after the corresponding undo step it again equals the union for
the original placed cells — both search steps preserve the invariant. -/
theorem blocked_eq_union_nbhds_step (rows cols : Nat) (st : ConstraintState)
    (placed : List Cell) (r c : Nat)
    (hinv : st.blocked = blockedOf rows cols placed) :
    (place rows cols st r c).1.blocked = blockedOf rows cols (placed ++ [(r, c)]) ∧
    (undo (place rows cols st r c).1 r c (place rows cols st r c).2).blocked
      = blockedOf rows cols placed := by
  refine ⟨place_blocked_eq rows cols st r c placed hinv, ?_⟩
  have h : (undo (place rows cols st r c).1 r c (place rows cols st r c).2).blocked
      = st.blocked := by
    simp only [place, undo]
    ext x
    simp only [Finset.mem_sdiff, Finset.mem_union]
    tauto
  rw [h, hinv]

theorem blocked_eq_union_nbhds_step_witness :
    (place 3 3 ⟨∅, ∅, blockedOf 3 3 [(0, 0)]⟩ 2 2).1.blocked
      = blockedOf 3 3 [(0, 0), (2, 2)] ∧
    (undo (place 3 3 ⟨∅, ∅, blockedOf 3 3 [(0, 0)]⟩ 2 2).1 2 2
        (place 3 3 ⟨∅, ∅, blockedOf 3 3 [(0, 0)]⟩ 2 2).2).blocked
      = blockedOf 3 3 [(0, 0)] :=
  blocked_eq_union_nbhds_step 3 3 ⟨∅, ∅, blockedOf 3 3 [(0, 0)]⟩ [(0, 0)] 2 2 rfl

/-! ### Claim C4: no rectangularity check -/

/-- C4 counterexample: on a region grid with rows of unequal length the
solver does not reject the input or report a malformed-grid error: it runs
the search and here even returns a successful placement, which could only
have been produced by the search itself. -/
theorem ragged_grid_searched_counterexample :
    ¬ rectangular [[0, 0, 0], [0, 0, 0], [1]] ∧
    solve_colored_queens [[0, 0, 0], [0, 0, 0], [1]] = some [(1, (2, 0)), (0, (0, 1))] := by
  constructor
  · decide
  · decide

/-- C4 amended: `solve_colored_queens` performs no rectangularity validation;
a grid with rows of unequal length is processed by the ordinary search (with
the first row's length as the column bound) and yields an ordinary result —
here the search runs to exhaustion and returns the no-solution value,
not a malformed-grid error. -/
theorem ragged_grid_ordinary_result :
    ¬ rectangular [[0], [1, 2]] ∧ solve_colored_queens [[0], [1, 2]] = none := by
  constructor
  · decide
  · decide

/-! ### Claim C5: determinism -/

/-- C5: the solver is deterministic — two calls on the same region grid
return identical results (the embedding is a pure function of the grid: dict
iteration follows insertion order and the sort is stable, so no step of the
source admits any nondeterminism). -/
theorem solve_colored_queens_deterministic (g₁ g₂ : Grid) (h : g₁ = g₂) :
    solve_colored_queens g₁ = solve_colored_queens g₂ := by
  rw [h]

theorem solve_colored_queens_deterministic_witness :
    solve_colored_queens [[0]] = solve_colored_queens [[0]] :=
  solve_colored_queens_deterministic [[0]] [[0]] rfl

/-! ### Claim C7: the empty grid -/

/-- C7: on the empty region grid the solver succeeds with the empty
placement, a value distinct from the no-solution result. -/
theorem solve_empty_grid :
    solve_colored_queens [] = some [] ∧ solve_colored_queens [] ≠ none := by
  constructor
  · decide
  · decide

/-! ### Claim C8: feasibility fast-fail -/

/-- C8: if any region in the region index has zero candidate cells, the
post-index part of the solver returns the no-solution value immediately,
whatever the backtracking search would do — the result is `none` for every
possible search function, so no backtracking step can be involved. (With
the index built by scanning the grid every region has a cell, so the check
only fires for an externally supplied region list, which is why it is
stated on the post-index component.) -/
theorem empty_region_fast_fail (regs : List (Nat × List Cell))
    (search : List Nat → SearchState → Option SearchState)
    (h : ∃ e ∈ regs, e.2 = []) :
    solveFromRegionsAux regs search = none := by
  obtain ⟨e, he, hnil⟩ := h
  unfold solveFromRegionsAux
  rw [if_pos]
  exact List.any_eq_true.mpr ⟨e, he, by simp [hnil]⟩

theorem empty_region_fast_fail_witness :
    solveFromRegionsAux [(5, [])]
      (fun _ _ => some ⟨⟨∅, ∅, ∅⟩, [(7, (0, 0))]⟩) = none :=
  empty_region_fast_fail [(5, [])] (fun _ _ => some ⟨⟨∅, ∅, ∅⟩, [(7, (0, 0))]⟩)
    ⟨(5, []), by simp, rfl⟩

/-! ### Claim C9: the column-regions 3×3 grid is unsolvable -/

/-- C9: on the 3×3 grid whose regions are the three full columns the solver
returns the no-solution value. -/
theorem solve_column_regions_none :
    solve_colored_queens [[0, 1, 2], [0, 1, 2], [0, 1, 2]] = none := by
  decide

/-! ### The search invariant -/

/-- Compatibility of two placed cells: distinct rows, distinct columns,
Chebyshev distance at least 2. -/
def validPair (p q : Cell) : Prop := p.1 ≠ q.1 ∧ p.2 ≠ q.2 ∧ 2 ≤ chebDist p q

/-- The invariant the search maintains on its mutable state: the used-rows
and used-columns sets are exactly the rows and columns of the placed cells,
the blocked set is the union of their in-bounds neighborhoods, every placed
cell is in bounds, and the placed cells are pairwise compatible. -/
def Inv (rows cols : Nat) (st : SearchState) : Prop :=
  st.cs.used_rows = (st.placement.map (fun e => e.2.1)).toFinset ∧
  st.cs.used_cols = (st.placement.map (fun e => e.2.2)).toFinset ∧
  st.cs.blocked = blockedOf rows cols (st.placement.map (·.2)) ∧
  (∀ e ∈ st.placement, e.2.1 < rows ∧ e.2.2 < cols) ∧
  (st.placement.map (·.2)).Pairwise validPair

/-- What a successful search from `st` over `order` guarantees about the
resulting state. -/
def SearchOK (rows cols : Nat) (regs : List (Nat × List Cell)) (order : List Nat)
    (st st' : SearchState) : Prop :=
  Inv rows cols st' ∧
  ∃ ext : List (Nat × Cell),
    st'.placement = st.placement ++ ext ∧
    ext.map (·.1) = order ∧
    ∀ e ∈ ext, e.2 ∈ lookupCells regs e.1

theorem tryCells_sound (rows cols : Nat) (regs : List (Nat × List Cell)) (rid : Nat)
    (rest : List Nat) (k : SearchState → Option SearchState)
    (hk : ∀ st st', Inv rows cols st →
      (∀ r' ∈ rest, r' ∉ st.placement.map (·.1)) →
      k st = some st' → SearchOK rows cols regs rest st st')
    (hrr : rid ∉ rest) :
    ∀ cands : List Cell,
      (∀ cell ∈ cands, cell ∈ lookupCells regs rid ∧ cell.1 < rows ∧ cell.2 < cols) →
      ∀ st st', Inv rows cols st →
        (∀ r' ∈ rid :: rest, r' ∉ st.placement.map (·.1)) →
        tryCells rows cols rid k cands st = some st' →
        SearchOK rows cols regs (rid :: rest) st st' := by
  intro cands
  induction cands with
  | nil =>
    intro _ st st' _ _ h
    exact absurd h (by simp [tryCells])
  | cons cell cs ih =>
    obtain ⟨r, c⟩ := cell
    intro hcands st st' hinv hfresh htc
    have hcell := hcands (r, c) (List.mem_cons_self _ _)
    have hcs : ∀ cell ∈ cs, cell ∈ lookupCells regs rid ∧ cell.1 < rows ∧ cell.2 < cols :=
      fun cell hc => hcands cell (List.mem_cons_of_mem _ hc)
    obtain ⟨hur, huc, hbl, hbnd, hpair⟩ := hinv
    simp only [tryCells] at htc
    split_ifs at htc with h1 h2
    · exact ih hcs st st' ⟨hur, huc, hbl, hbnd, hpair⟩ hfresh htc
    · exact ih hcs st st' ⟨hur, huc, hbl, hbnd, hpair⟩ hfresh htc
    · push_neg at h1
      obtain ⟨hr, hc⟩ := h1
      have hrid_fresh : rid ∉ st.placement.map (·.1) :=
        hfresh rid (List.mem_cons_self _ _)
      have hplaced_pl :
          dictInsert st.placement rid (r, c) = st.placement ++ [(rid, (r, c))] :=
        dictInsert_not_mem hrid_fresh
      cases hkp : k ⟨(place rows cols st.cs r c).1, dictInsert st.placement rid (r, c)⟩ with
      | none =>
        rw [hkp] at htc
        simp only at htc
        have hcs_eq : undo (place rows cols st.cs r c).1 r c (place rows cols st.cs r c).2
            = st.cs := place_undo_eq rows cols st.cs r c hr hc
        have hpl_eq : dictErase (dictInsert st.placement rid (r, c)) rid = st.placement :=
          dictErase_dictInsert hrid_fresh
        rw [hcs_eq, hpl_eq] at htc
        exact ih hcs st st' ⟨hur, huc, hbl, hbnd, hpair⟩ hfresh htc
      | some s =>
        rw [hkp] at htc
        simp only [Option.some_inj] at htc
        subst htc
        -- the placed state satisfies the invariant
        have hinv' : Inv rows cols
            ⟨(place rows cols st.cs r c).1, dictInsert st.placement rid (r, c)⟩ := by
          rw [Inv, hplaced_pl]
          refine ⟨?_, ?_, ?_, ?_, ?_⟩
          · show insert r st.cs.used_rows = _
            rw [hur]
            ext y
            simp only [Finset.mem_insert, List.mem_toFinset, List.map_append, List.map_cons,
              List.map_nil, List.mem_append, List.mem_singleton, List.mem_cons]
            tauto
          · show insert c st.cs.used_cols = _
            rw [huc]
            ext y
            simp only [Finset.mem_insert, List.mem_toFinset, List.map_append, List.map_cons,
              List.map_nil, List.mem_append, List.mem_singleton, List.mem_cons]
            tauto
          · have h := place_blocked_eq rows cols st.cs r c (st.placement.map (·.2)) hbl
            rw [h]
            simp only [List.map_append, List.map_cons, List.map_nil]
          · intro e he
            rcases List.mem_append.mp he with he' | he'
            · exact hbnd e he'
            · rcases List.mem_singleton.mp he' with rfl
              exact ⟨hcell.2.1, hcell.2.2⟩
          · simp only [List.map_append, List.map_cons, List.map_nil]
            rw [List.pairwise_append]
            refine ⟨hpair, List.pairwise_singleton _ _, ?_⟩
            intro p hp q hq
            rcases List.mem_singleton.mp hq with rfl
            have hp1 : p.1 ≠ r := by
              intro hpr
              apply hr
              rw [hur, List.mem_toFinset]
              rcases List.mem_map.mp hp with ⟨e, he, rfl⟩
              exact List.mem_map.mpr ⟨e, he, hpr⟩
            have hp2 : p.2 ≠ c := by
              intro hpc
              apply hc
              rw [huc, List.mem_toFinset]
              rcases List.mem_map.mp hp with ⟨e, he, rfl⟩
              exact List.mem_map.mpr ⟨e, he, hpc⟩
            have hcheb : 2 ≤ chebDist p (r, c) := by
              have hnb : (r, c) ∉ nbhd rows cols p := by
                intro hmem
                apply h2
                rw [hbl]
                exact mem_blockedOf.mpr ⟨p, hp, hmem⟩
              rw [mem_nbhd] at hnb
              push_neg at hnb
              have := hnb hcell.2.1 hcell.2.2
              omega
            exact ⟨hp1, hp2, hcheb⟩
        have hfresh' : ∀ r' ∈ rest,
            r' ∉ (⟨(place rows cols st.cs r c).1,
              dictInsert st.placement rid (r, c)⟩ : SearchState).placement.map (·.1) := by
          intro r' hr' hmem
          rw [hplaced_pl, List.map_append] at hmem
          rcases List.mem_append.mp hmem with hmem | hmem
          · exact hfresh r' (List.mem_cons_of_mem _ hr') hmem
          · simp only [List.map_cons, List.map_nil, List.mem_singleton] at hmem
            exact hrr (hmem ▸ hr')
        obtain ⟨hinvS, ext', hextpl, hextkeys, hextmem⟩ := hk _ s hinv' hfresh' hkp
        refine ⟨hinvS, (rid, (r, c)) :: ext', ?_, ?_, ?_⟩
        · rw [hextpl]
          simp only [hplaced_pl, List.append_assoc, List.singleton_append]
        · simp only [List.map_cons, hextkeys]
        · intro e he
          rcases List.mem_cons.mp he with rfl | he'
          · exact hcell.1
          · exact hextmem e he'

theorem backtrack_sound (rows cols : Nat) (regs : List (Nat × List Cell))
    (hcells : ∀ rid, ∀ cell ∈ lookupCells regs rid, cell.1 < rows ∧ cell.2 < cols) :
    ∀ order : List Nat, order.Nodup →
      ∀ st st', Inv rows cols st →
        (∀ r' ∈ order, r' ∉ st.placement.map (·.1)) →
        backtrack rows cols regs order st = some st' →
        SearchOK rows cols regs order st st' := by
  intro order
  induction order with
  | nil =>
    intro _ st st' hinv _ h
    simp only [backtrack, Option.some_inj] at h
    subst h
    exact ⟨hinv, [], by simp, rfl, by simp⟩
  | cons rid rest ih =>
    intro hnd st st' hinv hfresh h
    simp only [backtrack] at h
    have hnd' := List.nodup_cons.mp hnd
    exact tryCells_sound rows cols regs rid rest (backtrack rows cols regs rest)
      (fun st₁ st₁' hinv₁ hfresh₁ h₁ => ih hnd'.2 st₁ st₁' hinv₁ hfresh₁ h₁)
      hnd'.1 (lookupCells regs rid)
      (fun cell hc => ⟨hc, hcells rid cell hc⟩)
      st st' hinv hfresh h

/-- Specification of any successful solve: the placement's keys are exactly
the region order, every entry's cell comes from its region's candidate list,
and the placed cells are pairwise compatible. -/
theorem solve_some_spec (g : Grid) (p : List (Nat × Cell))
    (hcells : ∀ rid, ∀ cell ∈ lookupCells (buildRegions g) rid,
      cell.1 < g.length ∧ cell.2 < (g.head?.getD []).length)
    (hs : solve_colored_queens g = some p) :
    p.map (·.1) = region_order (buildRegions g) ∧
    (∀ e ∈ p, e.2 ∈ lookupCells (buildRegions g) e.1) ∧
    (p.map (·.2)).Pairwise validPair := by
  have hfeas : ((buildRegions g).any (fun e => e.2.isEmpty)) = false := by
    rw [List.any_eq_false]
    intro e he
    simpa using buildRegions_entries_ne_nil g e he
  unfold solve_colored_queens solveFromRegions solveFromRegionsAux at hs
  rw [hfeas] at hs
  simp only [Bool.false_eq_true, if_false] at hs
  have hnd : (region_order (buildRegions g)).Nodup :=
    (List.perm_insertionSort _ _).nodup_iff.mpr (nodup_keys_buildRegions g)
  cases hb : backtrack g.length (g.head?.getD []).length (buildRegions g)
      (region_order (buildRegions g)) ⟨⟨∅, ∅, ∅⟩, []⟩ with
  | none => rw [hb] at hs; simp at hs
  | some st =>
    rw [hb] at hs
    simp only [Option.some_inj] at hs
    have hinit : Inv g.length (g.head?.getD []).length ⟨⟨∅, ∅, ∅⟩, []⟩ := by
      refine ⟨by simp, by simp, ?_, by simp, by simp⟩
      simp [blockedOf]
    obtain ⟨hinvS, ext, hextpl, hextkeys, hextmem⟩ :=
      backtrack_sound g.length (g.head?.getD []).length (buildRegions g) hcells
        (region_order (buildRegions g)) hnd ⟨⟨∅, ∅, ∅⟩, []⟩ st hinit (by simp) hb
    simp only [List.nil_append] at hextpl
    subst hs
    rw [hextpl]
    exact ⟨hextkeys, hextmem, hextpl ▸ hinvS.2.2.2.2⟩

/-- Bounds of every candidate cell of a rectangular grid. -/
theorem rect_cells_bounded {g : Grid} (hrect : rectangular g) :
    ∀ rid, ∀ cell ∈ lookupCells (buildRegions g) rid,
      cell.1 < g.length ∧ cell.2 < (g.head?.getD []).length := by
  intro rid cell hc
  rw [mem_lookupCells_buildRegions, gridAt, Option.bind_eq_some] at hc
  obtain ⟨row, hrow, hentry⟩ := hc
  refine ⟨(List.getElem?_eq_some_iff.mp hrow).1, ?_⟩
  have h2 : cell.2 < row.length := (List.getElem?_eq_some_iff.mp hentry).1
  rw [← hrect row (List.getElem?_mem hrow)]
  exact h2

/-! ### Claim C1: any returned placement is valid -/

/-- C1: whenever the solver returns a placement on a (rectangular) region
grid, any two cells placed for distinct regions have different rows,
different columns, and Chebyshev distance at least 2. -/
theorem solve_placement_valid (g : Grid) (hrect : rectangular g) (p : List (Nat × Cell))
    (hs : solve_colored_queens g = some p) :
    ∀ a ca b cb, (a, ca) ∈ p → (b, cb) ∈ p → a ≠ b →
      ca.1 ≠ cb.1 ∧ ca.2 ≠ cb.2 ∧ 2 ≤ chebDist ca cb := by
  obtain ⟨hkeys, hmem, hpair⟩ := solve_some_spec g p (rect_cells_bounded hrect) hs
  intro a ca b cb hma hmb hne
  have hpair' : p.Pairwise (fun e₁ e₂ => validPair e₁.2 e₂.2) := List.pairwise_map.mp hpair
  have hsym : Symmetric (fun e₁ e₂ : Nat × Cell => validPair e₁.2 e₂.2) := by
    rintro x y ⟨h1, h2, h3⟩
    exact ⟨Ne.symm h1, Ne.symm h2, chebDist_comm y.2 x.2 ▸ h3⟩
  have hne' : ((a, ca) : Nat × Cell) ≠ (b, cb) := fun h => hne (congrArg Prod.fst h)
  exact List.Pairwise.forall hsym hpair' hma hmb hne'

theorem solve_placement_valid_witness :
    ((0, 1) : Cell).1 ≠ ((2, 0) : Cell).1 ∧ ((0, 1) : Cell).2 ≠ ((2, 0) : Cell).2 ∧
      2 ≤ chebDist (0, 1) (2, 0) :=
  solve_placement_valid [[0, 0, 0], [0, 0, 0], [1, 1, 1]] (by decide)
    [(1, (2, 0)), (0, (0, 1))] (by decide) 0 (0, 1) 1 (2, 0)
    (by simp) (by simp) (by decide)

/-! ### Claim C2: a returned placement covers every region exactly once -/

/-- C2: whenever the solver returns a placement on a (rectangular) region
grid, the placement has no duplicate region keys, its keys are exactly the
region identifiers appearing in the grid, and each entry's cell carries that
entry's region identifier in the grid. -/
theorem solve_placement_complete (g : Grid) (hrect : rectangular g) (p : List (Nat × Cell))
    (hs : solve_colored_queens g = some p) :
    (p.map (·.1)).Nodup ∧
    (∀ rid, rid ∈ p.map (·.1) ↔ ∃ cell, gridAt g cell = some rid) ∧
    (∀ e ∈ p, gridAt g e.2 = some e.1) := by
  obtain ⟨hkeys, hmem, -⟩ := solve_some_spec g p (rect_cells_bounded hrect) hs
  have hperm : List.Perm (region_order (buildRegions g)) ((buildRegions g).map (·.1)) :=
    List.perm_insertionSort _ _
  refine ⟨?_, ?_, ?_⟩
  · rw [hkeys]
    exact hperm.nodup_iff.mpr (nodup_keys_buildRegions g)
  · intro rid
    rw [hkeys]
    constructor
    · intro hin
      have hin' : rid ∈ (buildRegions g).map (·.1) := hperm.subset hin
      have hne : lookupCells (buildRegions g) rid ≠ [] :=
        lookupCells_ne_nil_of_mem (buildRegions_entries_ne_nil g) hin'
      obtain ⟨cell, hcell⟩ := List.exists_mem_of_ne_nil _ hne
      exact ⟨cell, mem_lookupCells_buildRegions.mp hcell⟩
    · rintro ⟨cell, hcell⟩
      have hcell' : cell ∈ lookupCells (buildRegions g) rid :=
        mem_lookupCells_buildRegions.mpr hcell
      by_contra hnot
      have : rid ∉ (buildRegions g).map (·.1) := fun hin => hnot (hperm.mem_iff.mpr hin)
      rw [lookupCells_eq_nil_of_not_mem this] at hcell'
      exact absurd hcell' (List.not_mem_nil cell)
  · intro e he
    exact mem_lookupCells_buildRegions.mp (hmem e he)

theorem solve_placement_complete_witness :
    (([(0, ((0, 0) : Cell))]).map (·.1)).Nodup :=
  (solve_placement_complete [[0]] (by decide) [(0, (0, 0))] (by decide)).1

/-! ### Sanity checks on concrete inputs -/

example : solve_colored_queens [] = some [] := by decide
example : solve_colored_queens [[0, 1, 2], [0, 1, 2], [0, 1, 2]] = none := by decide
example : solve_colored_queens [[0, 0, 0], [0, 0, 0], [1, 1, 1]]
    = some [(1, (2, 0)), (0, (0, 1))] := by decide
example : solve_colored_queens [[0, 0, 0], [0, 0, 0], [1]]
    = some [(1, (2, 0)), (0, (0, 1))] := by decide
example : solve_colored_queens [[0], [1, 2]] = none := by decide
example : solve_colored_queens [[0]] = some [(0, (0, 0))] := by decide

end QueensSolver
